import Mathlib

/-! Shallow embedding of the Lichtenberg-figure growth simulator
(`graphs.py` and `inverse_square_law_simple.py`).

Modelling conventions:
* Python dict keys may be the integers of the default constructor or the
  strings produced by `str(len(...))`; the `Key` type keeps both species
  apart, exactly as Python's `dict` does (an `int` key never equals a
  `str` key).
* The graph `dict` is embedded as an insertion-ordered association list
  with unique keys: `lookup` finds the first binding, insertion appends
  at the end, and key iteration order is list order, matching Python's
  insertion-ordered dictionaries.
* Numeric fields are exact rationals `ℚ` (the code uses floats; the
  claims under study are about exact values such as `0.005`, `15`,
  `1.4*r`, so the idealised exact model is the intended reading).
* Euclidean-norm comparisons (`is_too_close`, `get_nearest_vertex`) are
  embedded via squared distances: for nonnegative reals,
  `‖a‖ < c ↔ ‖a‖² < c²` and `‖a‖ ≤ ‖b‖ ↔ ‖a‖² ≤ ‖b‖²`, so thresholding
  and arg-min computations over squared distances coincide with the
  source's computations over `numpy.linalg.norm` values, while staying
  inside the decidable rationals.
* The one genuinely real-valued operation kept over `ℝ` is the final
  normalisation `F *= r/norm(F)` of `pick_expansion_point`, embedded
  with `Real.sqrt`.
* A Python run that raises (`ValueError` from `max([])`, `KeyError` from
  a missing key) produces no successor state; such operations return
  `Option` and yield `none` exactly in the raising cases.
-/

namespace PDRRT

/-- A Python dict key of this program: either an `int` (the default
constructor's keys `0`, `1` and the fallback `return 0`) or a `str`
(the keys `str(len(...))` minted during growth). Distinct species never
compare equal, as in Python. -/
inductive Key where
  | int (n : ℤ)
  | str (s : String)
deriving DecidableEq

/-- One vertex record of the Lichtenberg graph dictionary: the base
`Graph` fields `weight` and `neighbors` plus the `LichtenbergGraph`
fields `loc` and `burnt`. The base-class functions simply never read
`loc`/`burnt`. -/
structure Vertex where
  weight : ℚ
  neighbors : List Key
  loc : ℚ × ℚ
  burnt : ℚ
deriving DecidableEq

/-- The `_graph_dict`: an insertion-ordered association list with the
first binding of a key authoritative (keys are in fact unique in every
state the program builds). -/
abbrev LGraph := List (Key × Vertex)

/-- Dictionary lookup `_graph_dict[k]`, `none` when the key is absent
(Python would raise `KeyError`). -/
def lookup : LGraph → Key → Option Vertex
  | [], _ => none
  | (k', v) :: rest, k => if k' = k then some v else lookup rest k

/-- Python's `k in _graph_dict`. -/
def containsKey (g : LGraph) (k : Key) : Bool :=
  (lookup g k).isSome

/-- `list(_graph_dict.keys())` in iteration (= insertion) order. -/
def keysList (g : LGraph) : List Key :=
  g.map (fun kv => kv.1)

/-- `Graph.vertices()`: the list of keys. -/
def vertices (g : LGraph) : List Key :=
  keysList g

/-- In-place mutation of the (first) binding of `k`, as in
`_graph_dict[k][field] = ...`; a no-op when `k` is absent. -/
def updateVertex : LGraph → Key → (Vertex → Vertex) → LGraph
  | [], _, _ => []
  | (k', v) :: rest, k, f =>
      if k' = k then (k', f v) :: rest else (k', v) :: updateVertex rest k f

/-- The neighbor list of `k` (empty for an absent key); a convenience
accessor used only in theorem statements. -/
def neighborsOf (g : LGraph) (k : Key) : List Key :=
  ((lookup g k).map (fun v => v.neighbors)).getD []

/-- `Graph.add_vertex(vertex, neigh=None, w=1)` (graphs.py:29-39): if the
key is absent, append a fresh binding with the given weight and
neighbors; otherwise do nothing. The base class has no `loc`/`burnt`
fields; the inert defaults `(0,0)` and `0` stand for "not yet set". -/
def graph_add_vertex (g : LGraph) (k : Key) (neigh : Option (List Key)) (w : ℚ) : LGraph :=
  if containsKey g k then g
  else g ++ [(k, ⟨w, neigh.getD [], (0, 0), 0⟩)]

/-- `LichtenbergGraph.add_vertex(vertex, neigh=None, pos=None, w=1)`
(inverse_square_law_simple.py:51-58): call the base insert, then
unconditionally assign `_graph_dict[vertex]["burnt"] = 0` and
`_graph_dict[vertex]["loc"] = pos` (or `[0,0]` when `pos is None`) —
also when the key already existed and the base insert was a no-op. -/
def add_vertex (g : LGraph) (k : Key) (neigh : Option (List Key))
    (pos : Option (ℚ × ℚ)) (w : ℚ) : LGraph :=
  let g1 := graph_add_vertex g k neigh w
  let g2 := updateVertex g1 k (fun v => { v with burnt := 0 })
  updateVertex g2 k (fun v => { v with loc := pos.getD (0, 0) })

/-- One step of the inner loop of `Graph.__generate_edges`
(graphs.py:65-74): `if {neighbor, vertex} not in edges:
edges.append({vertex, neighbor})`. Python compares the two-element (or,
for a self-loop, one-element) sets by set equality, embedded here as
`Finset Key`. -/
def addEdgeOnce (edges : List (Finset Key)) (vtx nbr : Key) : List (Finset Key) :=
  if ({nbr, vtx} : Finset Key) ∈ edges then edges else edges ++ [({vtx, nbr} : Finset Key)]

/-- `Graph.__generate_edges` (graphs.py:65-74): the nested loop over
vertices and their neighbors, deduplicating unordered pairs. -/
def generate_edges (g : LGraph) : List (Finset Key) :=
  g.foldl (fun edges kv => kv.2.neighbors.foldl (fun es n => addEdgeOnce es kv.1 n) edges) []

/-- `Graph.edges()` (graphs.py:25-27). -/
def edges (g : LGraph) : List (Finset Key) :=
  generate_edges g

/-- The termination measure of `find_all_paths`: twice the number of
graph keys not yet on the current path, plus one when the start vertex
is still off the path (the recursion first commits `start` to the path
and then only descends into vertices off the extended path). -/
def fapMeasure (g : LGraph) (start : Key) (path : List Key) : ℕ :=
  2 * ((keysList g).filter (fun k => decide (k ∉ path))).length +
    (if start ∈ path then 1 else 0)

theorem filterNotMem_length_lt (l path : List Key) (s : Key)
    (hs : s ∈ l) (hsp : s ∉ path) :
    (l.filter (fun k => decide (k ∉ path ++ [s]))).length <
      (l.filter (fun k => decide (k ∉ path))).length := by
  induction l with
  | nil => cases hs
  | cons a as ih =>
    rw [List.filter_cons, List.filter_cons]
    by_cases has : a = s
    · subst has
      have h1 : (decide (a ∉ path ++ [a])) = false := by simp
      have h2 : (decide (a ∉ path)) = true := by simpa using hsp
      rw [h1, h2]
      have hle : (as.filter (fun k => decide (k ∉ path ++ [a]))).length ≤
          (as.filter (fun k => decide (k ∉ path))).length := by
        apply List.Sublist.length_le
        apply List.monotone_filter_right
        intro x hx
        simp only [decide_eq_true_eq, List.mem_append, List.mem_singleton, not_or] at hx ⊢
        exact hx.1
      simp only [Bool.false_eq_true, if_false, if_true, List.length_cons]
      omega
    · have hcong : (decide (a ∉ path ++ [s])) = (decide (a ∉ path)) := by
        apply decide_eq_decide.mpr
        simp only [List.mem_append, List.mem_singleton, not_or]
        constructor
        · intro hx; exact hx.1
        · intro hx; exact ⟨hx, has⟩
      rw [hcong]
      have hs' : s ∈ as := by
        rcases List.mem_cons.mp hs with h | h
        · exact absurd h.symm has
        · exact h
      have hlt := ih hs'
      cases hdec : (decide (a ∉ path)) with
      | false => simpa using hlt
      | true => simp only [if_true, List.length_cons]; omega

theorem filterNotMem_append_of_mem (l path : List Key) (s : Key)
    (hsp : s ∈ path) :
    (l.filter (fun k => decide (k ∉ path ++ [s]))) =
      (l.filter (fun k => decide (k ∉ path))) := by
  apply List.filter_congr
  intro x _
  apply decide_eq_decide.mpr
  simp only [List.mem_append, List.mem_singleton, not_or]
  constructor
  · intro hx; exact hx.1
  · intro hx
    refine ⟨hx, ?_⟩
    intro he
    exact hx (he ▸ hsp)

theorem lookup_isSome_mem_keys (g : LGraph) (k : Key) :
    (lookup g k).isSome = true → k ∈ keysList g := by
  induction g with
  | nil => intro h; simp [lookup] at h
  | cons kv rest ih =>
    intro h
    simp only [lookup] at h
    by_cases hk : kv.1 = k
    · simp [keysList, hk]
    · rw [if_neg hk] at h
      simp only [keysList, List.map_cons, List.mem_cons]
      exact Or.inr (ih h)

theorem fap_decreasing (g : LGraph) (start v : Key) (path : List Key)
    (hs : (lookup g start).isSome = true)
    (hv : v ∉ path ++ [start]) :
    fapMeasure g v (path ++ [start]) < fapMeasure g start path := by
  have hsk : start ∈ keysList g := lookup_isSome_mem_keys g start hs
  unfold fapMeasure
  rw [if_neg hv]
  by_cases hsp : start ∈ path
  · rw [if_pos hsp, filterNotMem_append_of_mem (keysList g) path start hsp]
    omega
  · rw [if_neg hsp]
    have hlt := filterNotMem_length_lt (keysList g) path start hsk hsp
    omega

/-- `Graph.find_all_paths(start_vertex, end_vertex, path=[])`
(graphs.py:85-103): append the start to the path; if start equals the
end, yield that single path; if the start key is absent, yield nothing;
otherwise recurse into each neighbor not already on the extended path,
concatenating the results in neighbor-list order. -/
def find_all_paths (g : LGraph) (start_vertex end_vertex : Key)
    (path : List Key) : List (List Key) :=
  let path' := path ++ [start_vertex]
  if start_vertex = end_vertex then [path']
  else
    match hl : lookup g start_vertex with
    | none => []
    | some vx =>
        (vx.neighbors.filter (fun v => decide (v ∉ path'))).attach.flatMap
          (fun vh =>
            have hv : vh.1 ∉ path ++ [start_vertex] :=
              of_decide_eq_true ((List.mem_filter.mp vh.2).2)
            have hs : (lookup g start_vertex).isSome = true := by rw [hl]; rfl
            find_all_paths g vh.1 end_vertex path')
termination_by fapMeasure g start_vertex path
decreasing_by exact fap_decreasing g start_vertex vh.1 path hs hv

/-- The summed vertex weight of one path,
`sum(graph[vertex]["weight"] for vertex in path)`; `none` when some key
on the path is absent (Python raises `KeyError`). -/
def path_weight (g : LGraph) : List Key → Option ℚ
  | [] => some 0
  | k :: rest =>
      match lookup g k, path_weight g rest with
      | some v, some s => some (v.weight + s)
      | _, _ => none

/-- The weight list of `Graph.get_path_weights` (graphs.py:105-111),
index-aligned with `find_all_paths`; `none` when any enumerated path
mentions an absent key. -/
def collect_path_weights (g : LGraph) : List (List Key) → Option (List ℚ)
  | [] => some []
  | p :: ps =>
      match path_weight g p, collect_path_weights g ps with
      | some w, some ws => some (w :: ws)
      | _, _ => none

/-- `Graph.get_path_weights(start_vertex, end_vertex)` (graphs.py:105-111). -/
def get_path_weights (g : LGraph) (s e : Key) : Option (List ℚ) :=
  collect_path_weights g (find_all_paths g s e [])

/-- Python's `max` over a nonempty list: the left fold of binary `max`
(numerically equal rationals are identical, so "first maximum" only
matters at the index step below). -/
def listMax (a : ℚ) (l : List ℚ) : ℚ :=
  l.foldl max a

/-- `Graph.find_shortest_path(start_vertex, end_vertex)`
(graphs.py:113-120): `paths[path_weights.index(max(path_weights))]`.
`none` when no path exists (`max([])` raises `ValueError`) or when a
weight could not be computed (`KeyError`). -/
def find_shortest_path (g : LGraph) (s e : Key) : Option (List Key) :=
  let paths := find_all_paths g s e []
  match get_path_weights g s e with
  | none => none
  | some [] => none
  | some (w :: ws) => paths.get? ((w :: ws).indexOf (listMax w ws))

/-- The class constant `r = 1` of `LichtenbergGraph`
(inverse_square_law_simple.py:18), the minimum spatial growth distance. -/
def r : ℚ := 1

/-- Squared Euclidean distance. The source compares
`numpy.linalg.norm` values; since norms are nonnegative and squaring is
strictly monotone on nonnegatives, every threshold test
(`‖d‖ < 1.4*r`) and every arg-min/tie comparison of the source is
equivalent to the same test on squared distances, which keeps the
embedding inside the decidable rationals. -/
def distSq (a b : ℚ × ℚ) : ℚ :=
  (a.1 - b.1) ^ 2 + (a.2 - b.2) ^ 2

/-- `LichtenbergGraph.get_nearest_vertex(new_loc)`
(inverse_square_law_simple.py:38-41): `min` over the distance
dictionary, which returns the first key attaining the minimal distance
in iteration order; `none` for an empty graph (Python `min` would raise
`ValueError`). -/
def get_nearest_vertex (g : LGraph) (new_loc : ℚ × ℚ) : Option Key :=
  match g with
  | [] => none
  | kv :: rest =>
      some ((rest.foldl (fun best kv' =>
        if distSq kv'.2.loc new_loc < distSq best.2.loc new_loc then kv' else best) kv).1)

/-- `LichtenbergGraph.is_too_close(new_loc)`
(inverse_square_law_simple.py:43-49): scan the vertices; on the first
one with `norm(new_loc - loc) < r*1.4` return
`get_nearest_vertex(new_loc)`; otherwise return `False` (embedded as
`none`). -/
def is_too_close (g : LGraph) (new_loc : ℚ × ℚ) : Option Key :=
  if g.any (fun kv => decide (distSq kv.2.loc new_loc < (7/5 * r) ^ 2)) then
    get_nearest_vertex g new_loc
  else none

/-- The distinguished root key `"0"` targeted by
`set_active_states`'s `find_shortest_path(vertex, "0")` call. -/
def root : Key := Key.str "0"

/-- The activation half of the on-path loop body of
`LichtenbergGraph.set_active_states` (inverse_square_law_simple.py:139-140):
increment `burnt` by `0.005` while it is strictly below `15`. -/
def burnStep (v : Vertex) : Vertex :=
  if v.burnt < 15 then { v with burnt := v.burnt + 1/200 } else v

/-- The weight half of the on-path loop body
(inverse_square_law_simple.py:141-145): for a non-root vertex, clamp a
sub-1 weight up to `1`, or multiply a sub-2 weight by `1.1`. -/
def weightStep (k : Key) (v : Vertex) : Vertex :=
  if k = root then v
  else if v.weight < 1 then { v with weight := 1 }
  else if v.weight < 2 then { v with weight := v.weight * (11/10) } else v

/-- The body of the on-path loop of `set_active_states`
(inverse_square_law_simple.py:138-145) for one path vertex `k`: the
activation update followed by the weight update, the latter reading the
state the former left behind. -/
def reinforceVertex (k : Key) (v : Vertex) : Vertex :=
  weightStep k (burnStep v)

/-- The body of the off-path loop of `set_active_states`
(inverse_square_law_simple.py:146-148): decay a weight above `0.025` by
`0.025`. -/
def decayVertex (v : Vertex) : Vertex :=
  if v.weight > 1/40 then { v with weight := v.weight - 1/40 } else v

/-- The on-path loop of `set_active_states`, in path order. -/
def burnLoop (g : LGraph) (path : List Key) : LGraph :=
  path.foldl (fun h k => updateVertex h k (reinforceVertex k)) g

/-- The off-path loop of `set_active_states`. The source iterates
`np.setdiff1d(list(graph.keys()), path)`, i.e. the off-path keys in
sorted order; the per-key in-place updates of distinct keys commute and
leave the dictionary in the same state whatever their order, so the
embedding folds in key-iteration order. -/
def decayLoop (g : LGraph) (ks : List Key) : LGraph :=
  ks.foldl (fun h k => updateVertex h k decayVertex) g

/-- `LichtenbergGraph.set_active_states(vertex)`
(inverse_square_law_simple.py:129-148): find the best path from
`vertex` to `"0"`, bump `burnt`/weights along it, decay weights off it.
`none` when `find_shortest_path` raises (no path, or a path mentions an
absent key), in which case the Python process dies with no successor
state. When it returns, every path key is a graph key (its weight was
just summed), so the in-place updates hit existing bindings. -/
def set_active_states (g : LGraph) (vertex : Key) : Option LGraph :=
  match find_shortest_path g vertex root with
  | none => none
  | some path =>
      some (decayLoop (burnLoop g path) ((keysList g).filter (fun k => decide (k ∉ path))))

/-- Python truthiness of the value returned by `is_too_close`: `False`
is falsy, and so are the keys `0` (an `int`) and `""` (an empty `str`);
any other key is truthy. -/
def truthy : Option Key → Bool
  | none => false
  | some (Key.int n) => decide (n ≠ 0)
  | some (Key.str s) => decide (s ≠ "")

/-- The retry test of `LichtenbergGraph.make_new_vertex`
(inverse_square_law_simple.py:123): `if self.is_too_close(p) and
expansion_vertex != self.is_too_close(p)`. The first conjunct is the
Python truthiness of the returned value; the second compares the
expansion key with the returned key (`is_too_close` is pure, so the two
calls agree). -/
def retryCond (g : LGraph) (ev : Key) (p : ℚ × ℚ) : Bool :=
  truthy (is_too_close g p) &&
    decide (some ev ≠ is_too_close g p)

/-- The key `str(len(self._graph_dict))` minted for an inserted vertex
(inverse_square_law_simple.py:126). -/
def newKey (g : LGraph) : Key :=
  Key.str (toString (keysList g).length)

/-- `LichtenbergGraph.make_new_vertex()`
(inverse_square_law_simple.py:114-127). The source draws an expansion
vertex and an expansion point internally; the embedding receives the
drawn `(expansion_vertex, expansion_point)` pair of each recursion
level as an explicit attempt list, returning `none` if the recursion
would outrun the supplied draws (the unbounded-retry case). Per level:
when the retry test fires, recurse; otherwise insert a brand-new vertex
`str(len)` with single neighbor `expansion_vertex` at the proposed
point; in either case `set_active_states(expansion_vertex)` runs after
the branch, on the state the branch produced. -/
def make_new_vertex (g : LGraph) : List (Key × (ℚ × ℚ)) → Option LGraph
  | [] => none
  | (ev, p) :: rest =>
      if retryCond g ev p then
        match make_new_vertex g rest with
        | none => none
        | some h => set_active_states h ev
      else
        set_active_states (add_vertex g (newKey g) (some [ev]) (some p) 1) ev

/-- The roulette-wheel loop of `LichtenbergGraph.pick_expansion_vertex`
(inverse_square_law_simple.py:95-99), over the per-vertex net-force
magnitudes `‖net_force(v)‖` in graph iteration order: subtract each
magnitude from the running mass `P` and return the current vertex once
`P ≤ 0`; when the loop exhausts the list, `return 0` — the integer
constant `0`, not a lookup of any graph entry. Generic over the ordered
field so the exact-rational witness instances and the general theorem
share one definition. -/
def roulette_loop {α : Type} [LinearOrderedField α] : List (Key × α) → α → Key
  | [], _ => Key.int 0
  | (k, m) :: rest, P => if P - m ≤ 0 then k else roulette_loop rest (P - m)

/-- `LichtenbergGraph.pick_expansion_vertex()`
(inverse_square_law_simple.py:86-99): `P = rand(0,1)*total_force`, then
the roulette loop. `forces` lists each graph vertex with its net-force
magnitude in iteration order; `u` is the uniform draw. -/
def pick_expansion_vertex {α : Type} [LinearOrderedField α]
    (forces : List (Key × α)) (u : α) : Key :=
  roulette_loop forces (u * (forces.map (fun km => km.2)).sum)

/-- The loop of `pick_expansion_vertex` exhausts every vertex: after
each subtraction the running mass is still strictly positive, so no
iteration returns and control reaches the final `return 0`. -/
def roulette_exhausts {α : Type} [LinearOrderedField α] : List (Key × α) → α → Bool
  | [], _ => true
  | (_, m) :: rest, P => decide (0 < P - m) && roulette_exhausts rest (P - m)

/-- `numpy.linalg.norm` of a 2-vector with rational components. -/
noncomputable def vnorm (v : ℚ × ℚ) : ℝ :=
  Real.sqrt ((v.1 : ℝ) ^ 2 + (v.2 : ℝ) ^ 2)

/-- The stochastic perturbation of `pick_expansion_point`
(inverse_square_law_simple.py:108-109), given the net-force components
`F` and the four uniform draws in consumption order:
`F[0] *= rand(0,1) + F[1]*rand(0,.3)` then
`F[1] *= rand(0,1) + F[0]*rand(0,.3)` — the second line reads the
ALREADY UPDATED `F[0]`. -/
def perturb (F : ℚ × ℚ) (u1 u2 u3 u4 : ℚ) : ℚ × ℚ :=
  let Fx := F.1 * (u1 + F.2 * u2)
  let Fy := F.2 * (u3 + Fx * u4)
  (Fx, Fy)

/-- `LichtenbergGraph.pick_expansion_point(vertex)`
(inverse_square_law_simple.py:101-112), parametrized — exactly as the
claim under study is — by the vertex position `x0 = loc(vertex)`, the
net-force components `F = net_force(vertex)` and the four uniform
draws: perturb `F`, rescale by `r/norm(F)`, add to `x0`. -/
noncomputable def pick_expansion_point (x0 F : ℚ × ℚ) (u1 u2 u3 u4 : ℚ) : ℝ × ℝ :=
  let F' := perturb F u1 u2 u3 u4
  ((x0.1 : ℝ) + (r : ℝ) / vnorm F' * (F'.1 : ℝ),
   (x0.2 : ℝ) + (r : ℝ) / vnorm F' * (F'.2 : ℝ))

/-- Modelled from the spec's words, for comparison with the source's
`perturb`: `Fx' = Fx * (U1 + Fy*U2)`, `Fy' = Fy * (U1' + Fx*U2')`,
"where both perturbed components are computed from the ORIGINAL
components Fx and Fy". -/
def perturbSpec (F : ℚ × ℚ) (u1 u2 u3 u4 : ℚ) : ℚ × ℚ :=
  (F.1 * (u1 + F.2 * u2), F.2 * (u3 + F.1 * u4))

/-- Modelled from the spec's words: the expansion point the claim
describes, `position(v) + r * normalize(perturbSpec ...)`. -/
noncomputable def pick_expansion_point_claimed (x0 F : ℚ × ℚ) (u1 u2 u3 u4 : ℚ) : ℝ × ℝ :=
  let F' := perturbSpec F u1 u2 u3 u4
  ((x0.1 : ℝ) + (r : ℝ) / vnorm F' * (F'.1 : ℝ),
   (x0.2 : ℝ) + (r : ℝ) / vnorm F' * (F'.2 : ℝ))

/-- The states reachable by the growth program: any starting dictionary
whose activations are all `0` (both the module's default constructor
graph and the `__main__` scenario graph qualify), advanced by completed
`make_new_vertex` growth steps, with the per-level random draws chosen
arbitrarily. -/
inductive Reach : LGraph → Prop where
  | init (g : LGraph) : (∀ k v, lookup g k = some v → v.burnt = 0) → Reach g
  | step (g : LGraph) (atts : List (Key × (ℚ × ℚ))) (g' : LGraph) :
      Reach g → make_new_vertex g atts = some g' → Reach g'

/-- The activation-granularity invariant maintained by every growth
operation: each stored activation is `m/200` for some number
`m ≤ 3000` of completed `0.005` increments (so it lies in `[0, 15]`). -/
def BurntOK (g : LGraph) : Prop :=
  ∀ k v, lookup g k = some v → ∃ m : ℕ, m ≤ 3000 ∧ v.burnt = (m : ℚ) / 200

/-- The reference two-vertex seed graph of the `__main__` scenario:
keys `"0"` and `"1"`, mutually linked, at `(0,0)` and `(1,1)`, unit
weights, zero activation. -/
def gEx : LGraph :=
  [(Key.str "0", ⟨1, [Key.str "1"], (0, 0), 0⟩),
   (Key.str "1", ⟨1, [Key.str "0"], (1, 1), 0⟩)]

/-- The state of `gEx` after one reinforcement pass seeded at `"1"`
(path `["1", "0"]`: both activations gain `0.005`, the non-root weight
grows to `1.1`, no off-path vertex exists). -/
def gExR : LGraph :=
  [(Key.str "0", ⟨1, [Key.str "1"], (0, 0), 1/200⟩),
   (Key.str "1", ⟨11/10, [Key.str "0"], (1, 1), 1/200⟩)]

/-- The state of `gEx` right after inserting the new vertex `"2"` at
`(5,5)` with single neighbor `"1"` (before reinforcement). -/
def gEx2 : LGraph :=
  [(Key.str "0", ⟨1, [Key.str "1"], (0, 0), 0⟩),
   (Key.str "1", ⟨1, [Key.str "0"], (1, 1), 0⟩),
   (Key.str "2", ⟨1, [Key.str "1"], (5, 5), 0⟩)]

/-- The state after the full growth step `make_new_vertex` on `gEx`
with draw `("1", (5,5))`: vertex `"2"` inserted, then the reinforcement
pass seeded at `"1"` (path `["1","0"]` reinforced, off-path `"2"`
decayed to `39/40`). -/
def g2R : LGraph :=
  [(Key.str "0", ⟨1, [Key.str "1"], (0, 0), 1/200⟩),
   (Key.str "1", ⟨11/10, [Key.str "0"], (1, 1), 1/200⟩),
   (Key.str "2", ⟨39/40, [Key.str "1"], (5, 5), 0⟩)]

/-- A one-vertex fixture whose vertex carries a nonzero activation and
position, exhibiting what `add_vertex` does to an existing key. -/
def gC1 : LGraph := [(Key.str "a", ⟨1, [], (3, 4), 7/200⟩)]

/-- A fixture built by a single `add_vertex` call whose neighbor list
names a key (`"z"`) that is not in the graph. -/
def gDangle : LGraph := graph_add_vertex [] (Key.str "a") (some [Key.str "z"]) 1

section Helpers

theorem attach_flatMap_eq {α β : Type} (l : List α) (f : α → List β) :
    l.attach.flatMap (fun x => f x.1) = l.flatMap f := by
  induction l with
  | nil => rfl
  | cons a as ih =>
    rw [List.attach_cons]
    simp only [List.flatMap_cons, List.flatMap_map]
    rw [← ih]

/-- Unfolding of `find_all_paths` in the base case `start == end`. -/
theorem fap_step_end (g : LGraph) (s : Key) (path : List Key) :
    find_all_paths g s s path = [path ++ [s]] := by
  rw [find_all_paths.eq_def]
  simp

/-- Unfolding of `find_all_paths` when the start key is absent. -/
theorem fap_step_none (g : LGraph) (s e : Key) (path : List Key)
    (h : s ≠ e) (hl : lookup g s = none) :
    find_all_paths g s e path = [] := by
  rw [find_all_paths.eq_def, if_neg h]
  split
  · rfl
  · next vx heq => rw [hl] at heq; cases heq

/-- Unfolding of `find_all_paths` in the recursive case. -/
theorem fap_step_some (g : LGraph) (s e : Key) (path : List Key) (vx : Vertex)
    (h : s ≠ e) (hl : lookup g s = some vx) :
    find_all_paths g s e path =
      (vx.neighbors.filter (fun v => decide (v ∉ path ++ [s]))).flatMap
        (fun v => find_all_paths g v e (path ++ [s])) := by
  rw [find_all_paths.eq_def, if_neg h]
  split
  · next heq => rw [hl] at heq; cases heq
  · next vx' heq =>
      rw [hl] at heq
      injection heq with heq'
      subst heq'
      exact attach_flatMap_eq _ (fun v => find_all_paths g v e (path ++ [s]))

/-- The loop of `pick_expansion_vertex` returns the constant key `0`
when it exhausts its magnitude list without the mass reaching `≤ 0`. -/
theorem roulette_loop_exhausts_eq {α : Type} [LinearOrderedField α] :
    ∀ (l : List (Key × α)) (P : α), roulette_exhausts l P = true →
      roulette_loop l P = Key.int 0 := by
  intro l
  induction l with
  | nil => intro P _; rfl
  | cons km rest ih =>
    intro P hex
    obtain ⟨k, m⟩ := km
    simp only [roulette_exhausts, Bool.and_eq_true, decide_eq_true_eq] at hex
    simp only [roulette_loop, if_neg (not_le.mpr hex.1)]
    exact ih _ hex.2

end Helpers

section ClaimC1

/-- C1 (code bug evidence). The claim — and the base class's own
docstring "if the vertex is there, does nothing" — say that
`addVertex` on an existing key leaves the stored vertex completely
unchanged. The subclass `LichtenbergGraph.add_vertex` instead
unconditionally reassigns `burnt = 0` and `loc = pos` after the base
no-op: on the fixture vertex `"a"` (weight 1, no neighbors, position
`(3,4)`, activation `7/200`), re-adding `"a"` with position `(9,9)` and
weight 2 keeps the weight and neighbors (the base insert is a no-op)
but resets the activation to `0` and overwrites the position with
`(9,9)`. -/
theorem add_vertex_existing_key_resets_burnt_and_loc :
    lookup gC1 (Key.str "a") = some ⟨1, [], (3, 4), 7/200⟩ ∧
    lookup (add_vertex gC1 (Key.str "a") (some [Key.str "q"]) (some (9, 9)) 2)
        (Key.str "a") = some ⟨1, [], (9, 9), 0⟩ :=
  ⟨rfl, rfl⟩

end ClaimC1

section ClaimC3

/-- C3 (counterexample). The claim says `findAllPaths(x, y)` is
empty for every absent start `x` "with no exception for the case
x == y"; but the source tests `start_vertex == end_vertex` *before* the
membership test, so for the absent key `"z"` the query
`find_all_paths("z", "z")` returns the singleton path `[["z"]]`, not
the empty sequence. -/
theorem find_all_paths_absent_self_cex :
    lookup gEx (Key.str "z") = none ∧
    find_all_paths gEx (Key.str "z") (Key.str "z") [] = [[Key.str "z"]] ∧
    ([[Key.str "z"]] : List (List Key)) ≠ [] := by
  refine ⟨rfl, ?_, by simp⟩
  simpa using fap_step_end gEx (Key.str "z") []

/-- C3 (amended). For a start key `x` absent from the graph,
`find_all_paths x y []` returns the empty sequence whenever `x ≠ y`;
in the exceptional case `x = y` it returns the singleton path `[[x]]`
(the base case fires before the membership check). -/
theorem find_all_paths_absent_start (g : LGraph) (x y : Key)
    (habs : lookup g x = none) :
    (x ≠ y → find_all_paths g x y [] = []) ∧
    (x = y → find_all_paths g x y [] = [[x]]) := by
  constructor
  · intro hne
    exact fap_step_none g x y [] hne habs
  · intro heq
    subst heq
    simpa using fap_step_end g x []

/-- Witness for `find_all_paths_absent_start` at the two-vertex
reference graph and the absent key `"z"`. -/
theorem find_all_paths_absent_start_witness :
    find_all_paths gEx (Key.str "z") (Key.str "0") [] = [] ∧
    find_all_paths gEx (Key.str "z") (Key.str "z") [] = [[Key.str "z"]] :=
  ⟨(find_all_paths_absent_start gEx (Key.str "z") (Key.str "0") rfl).1 (by decide),
   (find_all_paths_absent_start gEx (Key.str "z") (Key.str "z") rfl).2 rfl⟩

end ClaimC3

section ClaimC5

/-- C5 (counterexample). The claim says that when the roulette
loop exhausts every vertex it returns "the first vertex of the graph
… whatever that vertex's key is". On the magnitude list of a graph
whose first vertex is `"a"`, with a mass that stays positive through
both subtractions, the loop exhausts and the code's `return 0` yields
the integer key `0` — not the first vertex `"a"`. -/
theorem roulette_fallback_not_first_vertex_cex :
    roulette_exhausts [(Key.str "a", (1 : ℚ)), (Key.str "b", 1)]
        ((101/100 : ℚ) * ([(Key.str "a", (1 : ℚ)), (Key.str "b", 1)].map
          (fun km => km.2)).sum) = true ∧
    pick_expansion_vertex [(Key.str "a", (1 : ℚ)), (Key.str "b", 1)] (101/100) =
      Key.int 0 ∧
    ([(Key.str "a", (1 : ℚ)), (Key.str "b", 1)].map (fun km => km.1)).head? =
      some (Key.str "a") ∧
    Key.int 0 ≠ Key.str "a" := by
  have hex : roulette_exhausts [(Key.str "a", (1 : ℚ)), (Key.str "b", 1)]
      ((101/100 : ℚ) * ([(Key.str "a", (1 : ℚ)), (Key.str "b", 1)].map
        (fun km => km.2)).sum) = true := by
    norm_num [roulette_exhausts]
  exact ⟨hex, roulette_loop_exhausts_eq _ _ hex, rfl, by decide⟩

/-- C5 (amended). Whenever the roulette loop of
`pick_expansion_vertex` exhausts every vertex without the remaining
mass reaching `≤ 0`, the function deterministically returns the
constant integer key `0` (the literal `return 0`), regardless of which
vertex comes first in the graph's iteration order. -/
theorem roulette_fallback_constant_zero {α : Type} [LinearOrderedField α]
    (forces : List (Key × α)) (u : α)
    (hex : roulette_exhausts forces
      (u * (forces.map (fun km => km.2)).sum) = true) :
    pick_expansion_vertex forces u = Key.int 0 :=
  roulette_loop_exhausts_eq forces (u * (forces.map (fun km => km.2)).sum) hex

/-- Witness for `roulette_fallback_constant_zero` on a concrete
two-entry magnitude list with an overshooting mass. -/
theorem roulette_fallback_constant_zero_witness :
    pick_expansion_vertex [(Key.int 3, (1 : ℚ)), (Key.str "x", 2)] 2 = Key.int 0 :=
  roulette_fallback_constant_zero [(Key.int 3, (1 : ℚ)), (Key.str "x", 2)] 2
    (by norm_num [roulette_exhausts])

end ClaimC5

section ClaimC4

/-- C4 (counterexample). With net force `F = (1, 2)`, draws
`u1 = 1/2, u2 = 1/10, u3 = 1/2, u4 = 1/10` and the vertex at the
origin, the code's expansion point differs from the claimed
`position + r * normalize(Fx*(u1+Fy*u2), Fy*(u3+Fx*u4))`: the code
perturbs the y-component with the already-updated x-component
(`7/10`), producing the pre-normalization vector `(7/10, 57/50)`,
while the claim's formula produces `(7/10, 6/5)`; the two are not
positively parallel, so the normalized results differ. -/
theorem pick_expansion_point_claim_mismatch_cex :
    pick_expansion_point (0, 0) (1, 2) (1/2) (1/10) (1/2) (1/10) ≠
      pick_expansion_point_claimed (0, 0) (1, 2) (1/2) (1/10) (1/2) (1/10) := by
  intro h
  have hpc : perturb (1, 2) (1/2) (1/10) (1/2) (1/10) = ((7/10 : ℚ), (57/50 : ℚ)) := by
    norm_num [perturb, Prod.ext_iff]
  have hps : perturbSpec (1, 2) (1/2) (1/10) (1/2) (1/10) = ((7/10 : ℚ), (6/5 : ℚ)) := by
    norm_num [perturbSpec, Prod.ext_iff]
  rw [pick_expansion_point, pick_expansion_point_claimed, hpc, hps] at h
  have h1 := congrArg Prod.fst h
  have h2 := congrArg Prod.snd h
  simp only [r] at h1 h2
  set sa : ℝ := ((1 : ℚ) : ℝ) / vnorm ((7/10 : ℚ), (57/50 : ℚ)) with hsa
  set sb : ℝ := ((1 : ℚ) : ℝ) / vnorm ((7/10 : ℚ), (6/5 : ℚ)) with hsb
  have hsa_pos : 0 < sa := by
    rw [hsa]
    apply div_pos (by norm_num)
    unfold vnorm
    apply Real.sqrt_pos.mpr
    push_cast
    norm_num
  have h1' : sa * ((7/10 : ℚ) : ℝ) = sb * ((7/10 : ℚ) : ℝ) := by
    field_simp at h1 ⊢
    convert h1 using 2
  have hsab : sa = sb := by
    have : ((7/10 : ℚ) : ℝ) ≠ 0 := by push_cast; norm_num
    exact mul_right_cancel₀ this h1'
  have h2' : sa * ((57/50 : ℚ) : ℝ) = sb * ((6/5 : ℚ) : ℝ) := by
    field_simp at h2 ⊢
    convert h2 using 2
  rw [← hsab] at h2'
  have : sa * (((57/50 : ℚ) : ℝ) - ((6/5 : ℚ) : ℝ)) = 0 := by
    rw [mul_sub, h2', sub_self]
  have hne : (((57/50 : ℚ) : ℝ) - ((6/5 : ℚ) : ℝ)) ≠ 0 := by push_cast; norm_num
  rcases mul_eq_zero.mp this with hz | hz
  · exact absurd hz (ne_of_gt hsa_pos)
  · exact hne hz

/-- C4 (amended). `pick_expansion_point` returns
`position + r * normalize(Fx', Fy')` where `Fx' = Fx*(u1 + Fy*u2)` is
computed from the original components but `Fy' = Fy*(u3 + Fx'*u4)` is
computed from the already-updated x-component `Fx'`, the four uniform
draws being consumed in the order `u1, u2, u3, u4`; the x-components of
the code's perturbed vector and the claim's agree — only the
y-component differs. -/
theorem pick_expansion_point_sequential (x0 F : ℚ × ℚ) (u1 u2 u3 u4 : ℚ) :
    pick_expansion_point x0 F u1 u2 u3 u4 =
      ((x0.1 : ℝ) + (r : ℝ) / vnorm (F.1 * (u1 + F.2 * u2),
          F.2 * (u3 + (F.1 * (u1 + F.2 * u2)) * u4)) *
          ((F.1 * (u1 + F.2 * u2) : ℚ) : ℝ),
       (x0.2 : ℝ) + (r : ℝ) / vnorm (F.1 * (u1 + F.2 * u2),
          F.2 * (u3 + (F.1 * (u1 + F.2 * u2)) * u4)) *
          ((F.2 * (u3 + (F.1 * (u1 + F.2 * u2)) * u4) : ℚ) : ℝ)) ∧
    (perturb F u1 u2 u3 u4).1 = (perturbSpec F u1 u2 u3 u4).1 := by
  exact ⟨rfl, rfl⟩

end ClaimC4

section ClaimC8

/-- The result of the arg-min fold of `get_nearest_vertex` is one of
the folded entries. -/
theorem nearest_foldl_mem (p : ℚ × ℚ) :
    ∀ (rest : List (Key × Vertex)) (kv : Key × Vertex),
      (rest.foldl (fun best kv' =>
        if distSq kv'.2.loc p < distSq best.2.loc p then kv' else best) kv) ∈ kv :: rest := by
  intro rest
  induction rest with
  | nil => intro kv; simp
  | cons a as ih =>
    intro kv
    rw [List.foldl_cons]
    by_cases h : distSq a.2.loc p < distSq kv.2.loc p
    · rw [if_pos h]
      exact List.mem_cons_of_mem kv (ih a)
    · rw [if_neg h]
      rcases List.mem_cons.mp (ih kv) with h' | h'
      · rw [h']
        exact List.mem_cons_self _ _
      · exact List.mem_cons_of_mem kv (List.mem_cons_of_mem a h')

/-- The result of the arg-min fold of `get_nearest_vertex` minimizes
the (squared) distance over the folded entries. -/
theorem nearest_foldl_le (p : ℚ × ℚ) :
    ∀ (rest : List (Key × Vertex)) (kv : Key × Vertex), ∀ x ∈ kv :: rest,
      distSq (rest.foldl (fun best kv' =>
        if distSq kv'.2.loc p < distSq best.2.loc p then kv' else best) kv).2.loc p ≤
        distSq x.2.loc p := by
  intro rest
  induction rest with
  | nil =>
    intro kv x hx
    rcases List.mem_cons.mp hx with h | h
    · rw [h]; simp
    · cases h
  | cons a as ih =>
    intro kv x hx
    rw [List.foldl_cons]
    by_cases h : distSq a.2.loc p < distSq kv.2.loc p
    · rw [if_pos h]
      rcases List.mem_cons.mp hx with h' | h'
      · rw [h']
        exact le_trans (ih a a (List.mem_cons_self _ _)) (le_of_lt h)
      · rcases List.mem_cons.mp h' with h'' | h''
        · rw [h'']
          exact ih a a (List.mem_cons_self _ _)
        · exact ih a x (List.mem_cons_of_mem a h'')
    · rw [if_neg h]
      rcases List.mem_cons.mp hx with h' | h'
      · rw [h']
        exact ih kv kv (List.mem_cons_self _ _)
      · rcases List.mem_cons.mp h' with h'' | h''
        · rw [h'']
          exact le_trans (ih kv kv (List.mem_cons_self _ _)) (not_lt.mp h)
        · exact ih kv x (List.mem_cons_of_mem kv h'')

/-- `get_nearest_vertex` returns a key bound to a vertex of globally
minimal (squared) distance to the query point. -/
theorem get_nearest_vertex_spec (g : LGraph) (p : ℚ × ℚ) (k : Key)
    (h : get_nearest_vertex g p = some k) :
    ∃ v, (k, v) ∈ g ∧ ∀ kv ∈ g, distSq v.loc p ≤ distSq kv.2.loc p := by
  cases g with
  | nil => cases h
  | cons kv rest =>
    simp only [get_nearest_vertex, Option.some.injEq] at h
    refine ⟨(rest.foldl (fun best kv' =>
      if distSq kv'.2.loc p < distSq best.2.loc p then kv' else best) kv).2, ?_, ?_⟩
    · rw [← h]
      exact nearest_foldl_mem p rest kv
    · exact nearest_foldl_le p rest kv

/-- C8. `is_too_close(p)` returns `none` exactly when every vertex
of the graph is at (squared) Euclidean distance at least `(1.4*r)²`
from `p` — the comparison is the strict `norm < 1.4*r`, so a vertex at
distance exactly `1.4*r` does not trigger a merge; otherwise it returns
the key of a vertex at globally minimal distance to `p` (squared
distances order exactly as distances, both being nonnegative). -/
theorem is_too_close_none_iff_and_nearest (g : LGraph) (p : ℚ × ℚ) :
    (is_too_close g p = none ↔
      ∀ kv ∈ g, (7/5 * r) ^ 2 ≤ distSq kv.2.loc p) ∧
    (∀ k, is_too_close g p = some k →
      (∃ kv ∈ g, distSq kv.2.loc p < (7/5 * r) ^ 2) ∧
      ∃ v, (k, v) ∈ g ∧ ∀ kv ∈ g, distSq v.loc p ≤ distSq kv.2.loc p) := by
  by_cases hany : g.any (fun kv => decide (distSq kv.2.loc p < (7/5 * r) ^ 2)) = true
  · have hclose : ∃ kv ∈ g, distSq kv.2.loc p < (7/5 * r) ^ 2 := by
      rcases List.any_eq_true.mp hany with ⟨kv, hkv, hd⟩
      exact ⟨kv, hkv, of_decide_eq_true hd⟩
    have hne : g ≠ [] := by
      rintro rfl
      rcases hclose with ⟨kv, hkv, _⟩
      cases hkv
    have heq : is_too_close g p = get_nearest_vertex g p := by
      unfold is_too_close
      rw [if_pos hany]
    constructor
    · constructor
      · intro hnone
        exfalso
        rw [heq] at hnone
        cases g with
        | nil => exact hne rfl
        | cons kv rest => cases hnone
      · intro hfar
        exfalso
        rcases hclose with ⟨kv, hkv, hd⟩
        exact absurd (hfar kv hkv) (not_le.mpr hd)
    · intro k hk
      rw [heq] at hk
      exact ⟨hclose, get_nearest_vertex_spec g p k hk⟩
  · have heq : is_too_close g p = none := by
      unfold is_too_close
      rw [if_neg hany]
    constructor
    · rw [heq]
      simp only [true_iff]
      intro kv hkv
      by_contra hlt
      exact hany (List.any_eq_true.mpr ⟨kv, hkv, decide_eq_true (not_le.mp hlt)⟩)
    · intro k hk
      rw [heq] at hk
      cases hk

/-- Witness for `is_too_close_none_iff_and_nearest` on the reference
graph and the point `(1/10, 0)`, where the scan fires and the nearest
vertex is `"0"`. -/
theorem is_too_close_none_iff_and_nearest_witness :
    ((is_too_close gEx ((1/10 : ℚ), 0) = none ↔
      ∀ kv ∈ gEx, (7/5 * r) ^ 2 ≤ distSq kv.2.loc ((1/10 : ℚ), 0)) ∧
     ((∃ kv ∈ gEx, distSq kv.2.loc ((1/10 : ℚ), 0) < (7/5 * r) ^ 2) ∧
      ∃ v, (Key.str "0", v) ∈ gEx ∧
        ∀ kv ∈ gEx, distSq v.loc ((1/10 : ℚ), 0) ≤ distSq kv.2.loc ((1/10 : ℚ), 0))) := by
  have hsome : is_too_close gEx ((1/10 : ℚ), 0) = some (Key.str "0") := by
    norm_num [is_too_close, get_nearest_vertex, distSq, gEx, r, List.any_cons]
  exact ⟨(is_too_close_none_iff_and_nearest gEx ((1/10 : ℚ), 0)).1,
    (is_too_close_none_iff_and_nearest gEx ((1/10 : ℚ), 0)).2 (Key.str "0") hsome⟩

end ClaimC8

section ClaimC9

/-- One `addEdgeOnce` step keeps the edge list free of duplicate
unordered pairs. -/
theorem addEdgeOnce_nodup (es : List (Finset Key)) (v n : Key)
    (h : es.Nodup) : (addEdgeOnce es v n).Nodup := by
  unfold addEdgeOnce
  split
  · exact h
  · next hmem =>
      rw [Finset.pair_comm n v] at hmem
      simp [List.nodup_append, h, hmem]

theorem inner_fold_nodup (v : Key) :
    ∀ (ns : List Key) (es : List (Finset Key)), es.Nodup →
      (ns.foldl (fun es n => addEdgeOnce es v n) es).Nodup := by
  intro ns
  induction ns with
  | nil => intro es h; exact h
  | cons n ns ih =>
    intro es h
    rw [List.foldl_cons]
    exact ih _ (addEdgeOnce_nodup es v n h)

theorem outer_fold_nodup :
    ∀ (l : List (Key × Vertex)) (es : List (Finset Key)), es.Nodup →
      (l.foldl (fun edges kv =>
        kv.2.neighbors.foldl (fun es n => addEdgeOnce es kv.1 n) edges) es).Nodup := by
  intro l
  induction l with
  | nil => intro es h; exact h
  | cons kv l ih =>
    intro es h
    rw [List.foldl_cons]
    exact ih _ (inner_fold_nodup kv.1 kv.2.neighbors es h)

/-- One `addEdgeOnce` step keeps every edge endpoint inside `ks`,
provided both new endpoints are in `ks`. -/
theorem addEdgeOnce_endpoints (ks : List Key) (es : List (Finset Key)) (v n : Key)
    (hes : ∀ e ∈ es, ∀ x ∈ e, x ∈ ks) (hv : v ∈ ks) (hn : n ∈ ks) :
    ∀ e ∈ addEdgeOnce es v n, ∀ x ∈ e, x ∈ ks := by
  unfold addEdgeOnce
  split
  · exact hes
  · intro e he x hx
    rcases List.mem_append.mp he with h | h
    · exact hes e h x hx
    · rw [List.mem_singleton] at h
      subst h
      rcases Finset.mem_insert.mp hx with h | h
      · exact h ▸ hv
      · rw [Finset.mem_singleton] at h
        exact h ▸ hn

theorem inner_fold_endpoints (ks : List Key) (v : Key) (hv : v ∈ ks) :
    ∀ (ns : List Key) (es : List (Finset Key)),
      (∀ e ∈ es, ∀ x ∈ e, x ∈ ks) → (∀ n ∈ ns, n ∈ ks) →
      ∀ e ∈ ns.foldl (fun es n => addEdgeOnce es v n) es, ∀ x ∈ e, x ∈ ks := by
  intro ns
  induction ns with
  | nil => intro es hes _; exact hes
  | cons n ns ih =>
    intro es hes hns
    rw [List.foldl_cons]
    exact ih _ (addEdgeOnce_endpoints ks es v n hes hv (hns n (List.mem_cons_self _ _)))
      (fun m hm => hns m (List.mem_cons_of_mem n hm))

theorem outer_fold_endpoints (ks : List Key) :
    ∀ (l : List (Key × Vertex)) (es : List (Finset Key)),
      (∀ e ∈ es, ∀ x ∈ e, x ∈ ks) →
      (∀ kv ∈ l, kv.1 ∈ ks ∧ ∀ n ∈ kv.2.neighbors, n ∈ ks) →
      ∀ e ∈ l.foldl (fun edges kv =>
        kv.2.neighbors.foldl (fun es n => addEdgeOnce es kv.1 n) edges) es,
        ∀ x ∈ e, x ∈ ks := by
  intro l
  induction l with
  | nil => intro es hes _; exact hes
  | cons kv l ih =>
    intro es hes hl
    rw [List.foldl_cons]
    have hkv := hl kv (List.mem_cons_self _ _)
    exact ih _ (inner_fold_endpoints ks kv.1 hkv.1 kv.2.neighbors es hes hkv.2)
      (fun kv' h => hl kv' (List.mem_cons_of_mem kv h))

/-- C9 (counterexample). On the state built by the single call
`add_vertex("a", neigh=["z"], w=1)` — whose neighbor list names the key
`"z"` that is not in the graph — `edges()` returns the pair
`{"a", "z"}` whose endpoint `"z"` is not in `vertices()`. -/
theorem edges_dangling_endpoint_cex :
    ({Key.str "a", Key.str "z"} : Finset Key) ∈ edges gDangle ∧
    Key.str "z" ∈ ({Key.str "a", Key.str "z"} : Finset Key) ∧
    Key.str "z" ∉ vertices gDangle := by
  refine ⟨?_, by simp, by decide⟩
  show _ ∈ edges gDangle
  have : edges gDangle = [({Key.str "a", Key.str "z"} : Finset Key)] := rfl
  rw [this]
  exact List.mem_singleton.mpr rfl

/-- C9 (amended). For every graph state, `edges()` returns no
duplicate unordered pair; and whenever every neighbor reference of
every vertex is itself a key of the graph (no dangling references —
which `addVertex` does NOT guarantee, since it stores the neighbor list
as given), every endpoint of every returned pair is present in
`vertices()`. -/
theorem edges_nodup_and_endpoints (g : LGraph) :
    (edges g).Nodup ∧
    ((∀ kv ∈ g, ∀ n ∈ kv.2.neighbors, n ∈ keysList g) →
      ∀ e ∈ edges g, ∀ x ∈ e, x ∈ vertices g) := by
  constructor
  · exact outer_fold_nodup g [] List.nodup_nil
  · intro hnd
    apply outer_fold_endpoints (keysList g) g []
    · intro e he
      cases he
    · intro kv hkv
      exact ⟨List.mem_map.mpr ⟨kv, hkv, rfl⟩, hnd kv hkv⟩

/-- Witness for `edges_nodup_and_endpoints` on the dangling-free
reference graph. -/
theorem edges_nodup_and_endpoints_witness :
    (edges gEx).Nodup ∧ ∀ e ∈ edges gEx, ∀ x ∈ e, x ∈ vertices gEx :=
  ⟨(edges_nodup_and_endpoints gEx).1,
   (edges_nodup_and_endpoints gEx).2 (by decide)⟩

end ClaimC9

section ClaimC7

/-- Python's `max` over a nonempty list yields one of its elements. -/
theorem listMax_mem (a : ℚ) (l : List ℚ) : listMax a l ∈ a :: l := by
  unfold listMax
  induction l generalizing a with
  | nil => simp
  | cons b bs ih =>
    rw [List.foldl_cons]
    rcases List.mem_cons.mp (ih (max a b)) with h | h
    · rw [h]
      rcases max_choice a b with hm | hm <;> rw [hm]
      · exact List.mem_cons_self _ _
      · exact List.mem_cons_of_mem a (List.mem_cons_self _ _)
    · exact List.mem_cons_of_mem a (List.mem_cons_of_mem b h)

/-- Python's `max` over a nonempty list bounds every element. -/
theorem le_listMax (a : ℚ) (l : List ℚ) : ∀ x ∈ a :: l, x ≤ listMax a l := by
  unfold listMax
  induction l generalizing a with
  | nil =>
    intro x hx
    rcases List.mem_cons.mp hx with h | h
    · rw [h]
      exact le_refl a
    · cases h
  | cons b bs ih =>
    intro x hx
    rw [List.foldl_cons]
    have hmax := ih (max a b) (max a b) (List.mem_cons_self _ _)
    rcases List.mem_cons.mp hx with h | h
    · rw [h]
      exact le_trans (le_max_left a b) hmax
    · rcases List.mem_cons.mp h with h' | h'
      · rw [h']
        exact le_trans (le_max_right a b) hmax
      · exact ih (max a b) x (List.mem_cons_of_mem _ h')

/-- `list.index(a)` finds the first occurrence: every earlier entry
differs from `a`. -/
theorem get?_lt_indexOf_ne (l : List ℚ) (a : ℚ) :
    ∀ j, j < l.indexOf a → ∀ b, l.get? j = some b → b ≠ a := by
  induction l with
  | nil => intro j hj; simp [List.indexOf] at hj
  | cons c cs ih =>
    intro j hj b hb
    rw [List.indexOf_cons] at hj
    cases hbeq : (c == a) with
    | true => rw [hbeq] at hj; simp at hj
    | false =>
      rw [hbeq] at hj
      simp only [Bool.cond_false] at hj
      cases j with
      | zero =>
        simp only [List.get?] at hb
        injection hb with hb'
        rw [← hb']
        intro hca
        simp [hca] at hbeq
      | succ j' =>
        simp only [List.get?] at hb
        exact ih j' (by omega) b hb

/-- `collect_path_weights` aligns weights with paths index-for-index. -/
theorem collect_path_weights_get? (g : LGraph) :
    ∀ (ps : List (List Key)) (ws : List ℚ),
      collect_path_weights g ps = some ws →
      ws.length = ps.length ∧
      ∀ j p, ps.get? j = some p → ∃ w, path_weight g p = some w ∧ ws.get? j = some w := by
  intro ps
  induction ps with
  | nil =>
    intro ws h
    simp only [collect_path_weights] at h
    injection h with h'
    subst h'
    exact ⟨rfl, by intro j p hp; cases hp⟩
  | cons p ps ih =>
    intro ws h
    simp only [collect_path_weights] at h
    cases hw : path_weight g p with
    | none => rw [hw] at h; cases h
    | some w =>
      rw [hw] at h
      cases hws : collect_path_weights g ps with
      | none => rw [hws] at h; cases h
      | some ws' =>
        rw [hws] at h
        injection h with h'
        subst h'
        obtain ⟨hlen, hget⟩ := ih ws' hws
        refine ⟨by simp [hlen], ?_⟩
        intro j q hq
        cases j with
        | zero =>
          simp only [List.get?] at hq ⊢
          injection hq with hq'
          subst hq'
          exact ⟨w, hw, rfl⟩
        | succ j' =>
          simp only [List.get?] at hq ⊢
          exact hget j' q hq

/-- C7. When `find_shortest_path start end` returns a path `p`, it
is one of the paths enumerated by `find_all_paths` (at index `i`), its
summed vertex weight `wmax` is at least the summed weight of every
enumerated path, and every path enumerated before index `i` has summed
weight strictly below `wmax` — so `p` is the first maximal path in
enumeration order. -/
theorem find_shortest_path_maximal (g : LGraph) (s e : Key) (p : List Key)
    (h : find_shortest_path g s e = some p) :
    ∃ ws i wmax,
      get_path_weights g s e = some ws ∧
      (∀ j q, (find_all_paths g s e []).get? j = some q →
        ∃ w', ws.get? j = some w' ∧ path_weight g q = some w') ∧
      (find_all_paths g s e []).get? i = some p ∧
      ws.get? i = some wmax ∧ path_weight g p = some wmax ∧
      (∀ w' ∈ ws, w' ≤ wmax) ∧
      (∀ j, j < i → ∀ w', ws.get? j = some w' → w' < wmax) := by
  unfold find_shortest_path at h
  cases hw : get_path_weights g s e with
  | none => rw [hw] at h; cases h
  | some ws =>
    rw [hw] at h
    cases ws with
    | nil => cases h
    | cons w0 ws' =>
      obtain ⟨hlen, hget⟩ :=
        collect_path_weights_get? g (find_all_paths g s e []) (w0 :: ws') hw
      set wmax := listMax w0 ws' with hwmax
      set i := (w0 :: ws').indexOf wmax with hi
      have hmem : wmax ∈ w0 :: ws' := listMax_mem w0 ws'
      have hwi : (w0 :: ws').get? i = some wmax := List.indexOf_get? hmem
      refine ⟨w0 :: ws', i, wmax, rfl, ?_, h, hwi, ?_, ?_, ?_⟩
      · intro j q hq
        obtain ⟨w', hw', hws'⟩ := hget j q hq
        exact ⟨w', hws', hw'⟩
      · obtain ⟨w', hw', hws'⟩ := hget i p h
        rw [hwi] at hws'
        injection hws' with hws''
        rw [hws'']
        exact hw'
      · exact le_listMax w0 ws'
      · intro j hj w' hw'
        have hne : w' ≠ wmax := get?_lt_indexOf_ne (w0 :: ws') wmax j hj w' hw'
        have hle : w' ≤ wmax := le_listMax w0 ws' w' (List.get?_mem hw')
        exact lt_of_le_of_ne hle hne

end ClaimC7

section UpdateLemmas

theorem lookup_updateVertex_self (g : LGraph) (k : Key) (f : Vertex → Vertex) :
    lookup (updateVertex g k f) k = (lookup g k).map f := by
  induction g with
  | nil => rfl
  | cons kv rest ih =>
    obtain ⟨k', v⟩ := kv
    by_cases h : k' = k
    · simp [updateVertex, lookup, h]
    · simp [updateVertex, lookup, h, ih]

theorem lookup_updateVertex_other (g : LGraph) (k k' : Key) (f : Vertex → Vertex)
    (h : k ≠ k') : lookup (updateVertex g k f) k' = lookup g k' := by
  induction g with
  | nil => rfl
  | cons kv rest ih =>
    obtain ⟨k0, v⟩ := kv
    by_cases h0 : k0 = k
    · subst h0
      simp [updateVertex, lookup, h, ih]
    · by_cases h1 : k0 = k'
      · simp [updateVertex, lookup, h0, h1, Ne.symm h]
      · simp [updateVertex, lookup, h0, h1, ih]

theorem keysList_updateVertex (g : LGraph) (k : Key) (f : Vertex → Vertex) :
    keysList (updateVertex g k f) = keysList g := by
  induction g with
  | nil => rfl
  | cons kv rest ih =>
    obtain ⟨k0, v⟩ := kv
    by_cases h0 : k0 = k
    · simp [updateVertex, keysList, h0]
    · simp only [updateVertex, if_neg h0]
      simp [keysList] at ih ⊢
      exact ih

theorem lookup_append_left (g l : LGraph) (k : Key)
    (h : (lookup g k).isSome = true) : lookup (g ++ l) k = lookup g k := by
  induction g with
  | nil => simp [lookup] at h
  | cons kv rest ih =>
    obtain ⟨k0, v⟩ := kv
    by_cases h0 : k0 = k
    · simp [lookup, h0]
    · simp only [lookup, if_neg h0] at h ⊢
      exact ih h

theorem lookup_append_right (g l : LGraph) (k : Key)
    (h : lookup g k = none) : lookup (g ++ l) k = lookup l k := by
  induction g with
  | nil => rfl
  | cons kv rest ih =>
    obtain ⟨k0, v⟩ := kv
    by_cases h0 : k0 = k
    · simp [lookup, h0] at h
    · simp only [lookup, if_neg h0] at h ⊢
      exact ih h

/-- A projection untouched by the update function passes through
`updateVertex` at every key. -/
theorem lookup_map_proj_updateVertex {β : Type} (proj : Vertex → β)
    (g : LGraph) (k : Key) (f : Vertex → Vertex)
    (hp : ∀ v, proj (f v) = proj v) (k' : Key) :
    (lookup (updateVertex g k f) k').map proj = (lookup g k').map proj := by
  by_cases h : k = k'
  · subst h
    rw [lookup_updateVertex_self]
    cases lookup g k with
    | none => rfl
    | some v => simp [hp]
  · rw [lookup_updateVertex_other g k k' f h]

/-- A projection untouched by all the per-key update functions passes
through a whole update fold. -/
theorem lookup_map_proj_foldl {β : Type} (proj : Vertex → β)
    (upd : Key → Vertex → Vertex) (hp : ∀ k v, proj (upd k v) = proj v) :
    ∀ (ks : List Key) (g : LGraph) (k' : Key),
      (lookup (ks.foldl (fun h k => updateVertex h k (upd k)) g) k').map proj =
        (lookup g k').map proj := by
  intro ks
  induction ks with
  | nil => intro g k'; rfl
  | cons a as ih =>
    intro g k'
    rw [List.foldl_cons, ih]
    exact lookup_map_proj_updateVertex proj g a (upd a) (hp a) k'

theorem keysList_foldl_update (upd : Key → Vertex → Vertex) :
    ∀ (ks : List Key) (g : LGraph),
      keysList (ks.foldl (fun h k => updateVertex h k (upd k)) g) = keysList g := by
  intro ks
  induction ks with
  | nil => intro g; rfl
  | cons a as ih =>
    intro g
    rw [List.foldl_cons, ih, keysList_updateVertex]

theorem isSome_updateVertex (g : LGraph) (k k' : Key) (f : Vertex → Vertex) :
    (lookup (updateVertex g k f) k').isSome = (lookup g k').isSome := by
  by_cases h : k = k'
  · subst h
    rw [lookup_updateVertex_self]
    cases lookup g k <;> rfl
  · rw [lookup_updateVertex_other g k k' f h]

theorem isSome_foldl_update (upd : Key → Vertex → Vertex) :
    ∀ (ks : List Key) (g : LGraph) (k' : Key),
      (lookup (ks.foldl (fun h k => updateVertex h k (upd k)) g) k').isSome =
        (lookup g k').isSome := by
  intro ks
  induction ks with
  | nil => intro g k'; rfl
  | cons a as ih =>
    intro g k'
    rw [List.foldl_cons, ih, isSome_updateVertex]

theorem burnStep_neighbors (v : Vertex) : (burnStep v).neighbors = v.neighbors := by
  unfold burnStep
  split <;> rfl

theorem burnStep_loc (v : Vertex) : (burnStep v).loc = v.loc := by
  unfold burnStep
  split <;> rfl

theorem weightStep_neighbors (k : Key) (v : Vertex) :
    (weightStep k v).neighbors = v.neighbors := by
  unfold weightStep
  split <;> first | rfl | (split <;> first | rfl | (split <;> rfl))

theorem weightStep_loc (k : Key) (v : Vertex) : (weightStep k v).loc = v.loc := by
  unfold weightStep
  split <;> first | rfl | (split <;> first | rfl | (split <;> rfl))

theorem weightStep_burnt (k : Key) (v : Vertex) : (weightStep k v).burnt = v.burnt := by
  unfold weightStep
  split <;> first | rfl | (split <;> first | rfl | (split <;> rfl))

theorem reinforceVertex_neighbors (k : Key) (v : Vertex) :
    (reinforceVertex k v).neighbors = v.neighbors := by
  unfold reinforceVertex
  rw [weightStep_neighbors, burnStep_neighbors]

theorem reinforceVertex_loc (k : Key) (v : Vertex) :
    (reinforceVertex k v).loc = v.loc := by
  unfold reinforceVertex
  rw [weightStep_loc, burnStep_loc]

/-- The activation update performed by one on-path reinforcement step:
`+0.005` below the cap `15`, frozen at or above it. -/
theorem reinforceVertex_burnt (k : Key) (v : Vertex) :
    (reinforceVertex k v).burnt = if v.burnt < 15 then v.burnt + 1/200 else v.burnt := by
  unfold reinforceVertex burnStep
  rw [weightStep_burnt]
  split <;> simp [burnStep]

theorem decayVertex_neighbors (v : Vertex) : (decayVertex v).neighbors = v.neighbors := by
  unfold decayVertex
  split <;> rfl

theorem decayVertex_loc (v : Vertex) : (decayVertex v).loc = v.loc := by
  unfold decayVertex
  split <;> rfl

theorem decayVertex_burnt (v : Vertex) : (decayVertex v).burnt = v.burnt := by
  unfold decayVertex
  split <;> rfl

/-- When `set_active_states` succeeds, it succeeds on the best path to
the root and produces exactly the two reinforcement loops' result. -/
theorem set_active_states_elim (g : LGraph) (v : Key) (g' : LGraph)
    (h : set_active_states g v = some g') :
    ∃ path, find_shortest_path g v root = some path ∧
      g' = decayLoop (burnLoop g path)
        ((keysList g).filter (fun k => decide (k ∉ path))) := by
  unfold set_active_states at h
  cases hf : find_shortest_path g v root with
  | none => rw [hf] at h; cases h
  | some path =>
    rw [hf] at h
    injection h with h'
    exact ⟨path, rfl, h'.symm⟩

/-- `set_active_states` never adds or removes vertices and never
changes any vertex's neighbor list or position. -/
theorem set_active_states_preserves (g : LGraph) (v : Key) (g' : LGraph)
    (h : set_active_states g v = some g') :
    keysList g' = keysList g ∧
    (∀ k, (lookup g' k).map (fun w => w.neighbors) =
      (lookup g k).map (fun w => w.neighbors)) ∧
    (∀ k, (lookup g' k).map (fun w => w.loc) = (lookup g k).map (fun w => w.loc)) ∧
    (∀ k, (lookup g' k).isSome = (lookup g k).isSome) := by
  obtain ⟨path, _, hg'⟩ := set_active_states_elim g v g' h
  subst hg'
  unfold decayLoop burnLoop
  refine ⟨?_, ?_, ?_, ?_⟩
  · rw [keysList_foldl_update, keysList_foldl_update]
  · intro k
    rw [lookup_map_proj_foldl _ _ (fun _ w => decayVertex_neighbors w),
      lookup_map_proj_foldl _ _ reinforceVertex_neighbors]
  · intro k
    rw [lookup_map_proj_foldl _ _ (fun _ w => decayVertex_loc w),
      lookup_map_proj_foldl _ _ reinforceVertex_loc]
  · intro k
    rw [isSome_foldl_update, isSome_foldl_update]

end UpdateLemmas

section PathLemmas

theorem nodup_append_singleton (l : List Key) (v : Key) :
    (l ++ [v]).Nodup ↔ l.Nodup ∧ v ∉ l := by
  rw [List.nodup_append]
  constructor
  · rintro ⟨h1, _, h3⟩
    exact ⟨h1, fun hv => h3 hv (List.mem_singleton.mpr rfl)⟩
  · rintro ⟨h1, h2⟩
    refine ⟨h1, List.nodup_singleton v, ?_⟩
    intro x hx hx'
    rw [List.mem_singleton] at hx'
    subst hx'
    exact h2 hx

/-- Every path produced by `find_all_paths` extends the committed path
without revisiting: when the committed prefix (with the start appended)
has no duplicates, neither does any returned path. -/
theorem find_all_paths_nodup (n : ℕ) :
    ∀ (g : LGraph) (s e : Key) (visited : List Key),
      fapMeasure g s visited = n →
      (visited ++ [s]).Nodup →
      ∀ p ∈ find_all_paths g s e visited, p.Nodup := by
  induction n using Nat.strong_induction_on with
  | _ n ih =>
    intro g s e visited hm hnd p hp
    by_cases hse : s = e
    · subst hse
      rw [fap_step_end] at hp
      rw [List.mem_singleton] at hp
      subst hp
      exact hnd
    · cases hl : lookup g s with
      | none =>
        rw [fap_step_none g s e visited hse hl] at hp
        cases hp
      | some vx =>
        rw [fap_step_some g s e visited vx hse hl] at hp
        rcases List.mem_flatMap.mp hp with ⟨v, hv, hpv⟩
        have hvnot : v ∉ visited ++ [s] :=
          of_decide_eq_true ((List.mem_filter.mp hv).2)
        have hdec : fapMeasure g v (visited ++ [s]) < n := by
          rw [← hm]
          exact fap_decreasing g s v visited (by rw [hl]; rfl) hvnot
        have hnd' : ((visited ++ [s]) ++ [v]).Nodup :=
          (nodup_append_singleton _ v).mpr ⟨hnd, hvnot⟩
        exact ih (fapMeasure g v (visited ++ [s])) hdec g v e (visited ++ [s])
          rfl hnd' p hpv

/-- A successful `find_shortest_path` returns one of the enumerated
paths. -/
theorem find_shortest_path_mem (g : LGraph) (s e : Key) (p : List Key)
    (h : find_shortest_path g s e = some p) : p ∈ find_all_paths g s e [] := by
  unfold find_shortest_path at h
  cases hw : get_path_weights g s e with
  | none => rw [hw] at h; cases h
  | some ws =>
    rw [hw] at h
    cases ws with
    | nil => cases h
    | cons w0 ws' => exact List.get?_mem h

/-- A successful `find_shortest_path` returns a duplicate-free path. -/
theorem find_shortest_path_nodup (g : LGraph) (s e : Key) (p : List Key)
    (h : find_shortest_path g s e = some p) : p.Nodup := by
  have hp := find_shortest_path_mem g s e p h
  exact find_all_paths_nodup (fapMeasure g s []) g s e [] rfl (by simp) p hp

/-- Keys off the path are untouched by the on-path loop. -/
theorem burnLoop_lookup_not_mem :
    ∀ (path : List Key) (g : LGraph) (k : Key), k ∉ path →
      lookup (burnLoop g path) k = lookup g k := by
  intro path
  induction path with
  | nil => intro g k _; rfl
  | cons a rest ih =>
    intro g k hk
    have hka : a ≠ k := fun h => hk (h ▸ List.mem_cons_self a rest)
    unfold burnLoop at ih ⊢
    rw [List.foldl_cons, ih _ k (fun h => hk (List.mem_cons_of_mem a h)),
      lookup_updateVertex_other g a k _ hka]

/-- On a duplicate-free path, each on-path key receives exactly one
reinforcement update. -/
theorem burnLoop_lookup_mem :
    ∀ (path : List Key) (g : LGraph) (k : Key), path.Nodup → k ∈ path →
      lookup (burnLoop g path) k = (lookup g k).map (reinforceVertex k) := by
  intro path
  induction path with
  | nil => intro g k _ hk; cases hk
  | cons a rest ih =>
    intro g k hnd hk
    unfold burnLoop
    rw [List.foldl_cons]
    by_cases hka : k = a
    · subst hka
      have hknr : k ∉ rest := (List.nodup_cons.mp hnd).1
      have := burnLoop_lookup_not_mem rest (updateVertex g k (reinforceVertex k)) k hknr
      unfold burnLoop at this
      rw [this, lookup_updateVertex_self]
    · have hkr : k ∈ rest := by
        rcases List.mem_cons.mp hk with h | h
        · exact absurd h hka
        · exact h
      have := ih (updateVertex g a (reinforceVertex a)) k (List.nodup_cons.mp hnd).2 hkr
      unfold burnLoop at this
      rw [this, lookup_updateVertex_other g a k _ (fun h => hka h.symm)]

/-- The off-path decay loop never touches any activation. -/
theorem decayLoop_burnt (ks : List Key) (g : LGraph) (k : Key) :
    (lookup (decayLoop g ks) k).map (fun w => w.burnt) =
      (lookup g k).map (fun w => w.burnt) := by
  unfold decayLoop
  exact lookup_map_proj_foldl _ _ (fun _ w => decayVertex_burnt w) ks g k

/-- Pointwise activation effect of a successful `set_active_states`:
every stored vertex survives, on-path vertices strictly below the cap
gain exactly `0.005`, all other activations are unchanged, and no
activation decreases. -/
theorem set_active_states_burnt_char (g : LGraph) (v : Key) (g' : LGraph)
    (h : set_active_states g v = some g') :
    ∃ path, find_shortest_path g v root = some path ∧
      ∀ k vk, lookup g k = some vk →
        ∃ vk', lookup g' k = some vk' ∧
          vk'.burnt = (if k ∈ path ∧ vk.burnt < 15 then vk.burnt + 1/200
            else vk.burnt) ∧
          vk.burnt ≤ vk'.burnt := by
  obtain ⟨path, hfsp, hg'⟩ := set_active_states_elim g v g' h
  have hnd : path.Nodup := find_shortest_path_nodup g v root path hfsp
  refine ⟨path, hfsp, ?_⟩
  intro k vk hvk
  have hburnt : (lookup g' k).map (fun w => w.burnt) =
      some (if k ∈ path ∧ vk.burnt < 15 then vk.burnt + 1/200 else vk.burnt) := by
    rw [hg', decayLoop_burnt]
    by_cases hk : k ∈ path
    · rw [burnLoop_lookup_mem path g k hnd hk, hvk]
      simp only [Option.map_map, Option.map_some', Function.comp_apply,
        reinforceVertex_burnt]
      by_cases hlt : vk.burnt < 15
      · rw [if_pos hlt, if_pos ⟨hk, hlt⟩]
      · rw [if_neg hlt, if_neg (fun hc => hlt hc.2)]
    · rw [burnLoop_lookup_not_mem path g k hk, hvk]
      rw [if_neg (fun hc => hk hc.1)]
      rfl
  cases hvk' : lookup g' k with
  | none => rw [hvk'] at hburnt; cases hburnt
  | some vk' =>
    rw [hvk'] at hburnt
    simp only [Option.map_some', Option.some.injEq] at hburnt
    refine ⟨vk', rfl, hburnt, ?_⟩
    rw [hburnt]
    by_cases hc : k ∈ path ∧ vk.burnt < 15
    · rw [if_pos hc]
      linarith
    · rw [if_neg hc]

end PathLemmas

section ClaimC6

theorem lookup_append_cases (g l : LGraph) (k : Key) (v : Vertex)
    (h : lookup (g ++ l) k = some v) :
    lookup g k = some v ∨ lookup l k = some v := by
  cases hl : lookup g k with
  | none => right; rw [← lookup_append_right g l k hl]; exact h
  | some w => left; rw [lookup_append_left g l k (by rw [hl]; rfl)] at h; rw [← h, hl]

theorem lookup_append_single_other (g : LGraph) (k0 k' : Key) (v0 : Vertex)
    (h : k0 ≠ k') : lookup (g ++ [(k0, v0)]) k' = lookup g k' := by
  cases hl : lookup g k' with
  | none =>
    rw [lookup_append_right g _ k' hl]
    simp [lookup, h]
  | some w => rw [lookup_append_left g _ k' (by rw [hl]; rfl), hl]

/-- `add_vertex` at a fresh key appends exactly the vertex record the
arguments describe: the given weight and neighbors, the given position
(default `(0,0)`), and activation `0`. -/
theorem lookup_add_vertex_fresh (g : LGraph) (k : Key) (neigh : Option (List Key))
    (pos : Option (ℚ × ℚ)) (w : ℚ) (habs : lookup g k = none) :
    lookup (add_vertex g k neigh pos w) k =
      some ⟨w, neigh.getD [], pos.getD (0, 0), 0⟩ := by
  have hc : containsKey g k = false := by simp [containsKey, habs]
  unfold add_vertex graph_add_vertex
  rw [hc]
  simp only [Bool.false_eq_true, if_false]
  rw [lookup_updateVertex_self, lookup_updateVertex_self,
    lookup_append_right g _ k habs]
  simp [lookup]

/-- `add_vertex` leaves every other key's binding untouched. -/
theorem lookup_add_vertex_other (g : LGraph) (k k' : Key) (neigh : Option (List Key))
    (pos : Option (ℚ × ℚ)) (w : ℚ) (h : k ≠ k') :
    lookup (add_vertex g k neigh pos w) k' = lookup g k' := by
  unfold add_vertex graph_add_vertex
  rw [lookup_updateVertex_other _ k k' _ h, lookup_updateVertex_other _ k k' _ h]
  by_cases hc : containsKey g k = true
  · rw [if_pos hc]
  · rw [if_neg hc]
    exact lookup_append_single_other g k k' _ h

theorem burntOK_updateVertex (g : LGraph) (k : Key) (f : Vertex → Vertex)
    (hf : ∀ v, (∃ m : ℕ, m ≤ 3000 ∧ v.burnt = (m : ℚ) / 200) →
      ∃ m : ℕ, m ≤ 3000 ∧ (f v).burnt = (m : ℚ) / 200)
    (hg : BurntOK g) : BurntOK (updateVertex g k f) := by
  intro k' v hv
  by_cases h : k = k'
  · subst h
    rw [lookup_updateVertex_self] at hv
    cases hl : lookup g k with
    | none => rw [hl] at hv; cases hv
    | some u =>
      rw [hl] at hv
      injection hv with hv'
      rw [← hv']
      exact hf u (hg k u hl)
  · rw [lookup_updateVertex_other g k k' f h] at hv
    exact hg k' v hv

theorem burntOK_foldl (upd : Key → Vertex → Vertex)
    (hf : ∀ k v, (∃ m : ℕ, m ≤ 3000 ∧ v.burnt = (m : ℚ) / 200) →
      ∃ m : ℕ, m ≤ 3000 ∧ (upd k v).burnt = (m : ℚ) / 200) :
    ∀ (ks : List Key) (g : LGraph), BurntOK g →
      BurntOK (ks.foldl (fun h k => updateVertex h k (upd k)) g) := by
  intro ks
  induction ks with
  | nil => intro g hg; exact hg
  | cons a as ih =>
    intro g hg
    rw [List.foldl_cons]
    exact ih _ (burntOK_updateVertex g a (upd a) (hf a) hg)

/-- One reinforcement step keeps an activation on the `0.005` grid
below the cap: below `15` it moves from `m/200` to `(m+1)/200` with
`m+1 ≤ 3000`, otherwise it is frozen. -/
theorem reinforce_burnt_grid (k : Key) (v : Vertex)
    (h : ∃ m : ℕ, m ≤ 3000 ∧ v.burnt = (m : ℚ) / 200) :
    ∃ m : ℕ, m ≤ 3000 ∧ (reinforceVertex k v).burnt = (m : ℚ) / 200 := by
  obtain ⟨m, hm, heq⟩ := h
  rw [reinforceVertex_burnt]
  by_cases hlt : v.burnt < 15
  · rw [if_pos hlt]
    have hmq : (m : ℚ) < 3000 := by
      have := (div_lt_iff₀ (show (0 : ℚ) < 200 by norm_num)).mp (heq ▸ hlt)
      linarith
    have hm' : m < 3000 := by exact_mod_cast hmq
    refine ⟨m + 1, by omega, ?_⟩
    rw [heq]
    push_cast
    ring
  · rw [if_neg hlt]
    exact ⟨m, hm, heq⟩

theorem decay_burnt_grid (v : Vertex)
    (h : ∃ m : ℕ, m ≤ 3000 ∧ v.burnt = (m : ℚ) / 200) :
    ∃ m : ℕ, m ≤ 3000 ∧ (decayVertex v).burnt = (m : ℚ) / 200 := by
  rw [decayVertex_burnt]
  exact h

theorem burntOK_set_active_states (g : LGraph) (v : Key) (g' : LGraph)
    (h : set_active_states g v = some g') (hg : BurntOK g) : BurntOK g' := by
  obtain ⟨path, _, hg'⟩ := set_active_states_elim g v g' h
  subst hg'
  unfold decayLoop burnLoop
  exact burntOK_foldl (fun _ => decayVertex) (fun _ v => decay_burnt_grid v) _ _
    (burntOK_foldl reinforceVertex reinforce_burnt_grid _ _ hg)

theorem burntOK_add_vertex (g : LGraph) (k : Key) (neigh : Option (List Key))
    (pos : Option (ℚ × ℚ)) (w : ℚ) (hg : BurntOK g) :
    BurntOK (add_vertex g k neigh pos w) := by
  intro k' v hv
  by_cases h : k = k'
  · subst h
    cases habs : lookup g k with
    | none =>
      rw [lookup_add_vertex_fresh g k neigh pos w habs] at hv
      injection hv with hv'
      rw [← hv']
      exact ⟨0, by omega, by norm_num⟩
    | some u =>
      unfold add_vertex graph_add_vertex at hv
      have hc : containsKey g k = true := by simp [containsKey, habs]
      rw [hc] at hv
      simp only [if_true] at hv
      rw [lookup_updateVertex_self, lookup_updateVertex_self, habs] at hv
      simp only [Option.map_some', Option.some.injEq] at hv
      rw [← hv]
      exact ⟨0, by omega, by norm_num⟩
  · rw [lookup_add_vertex_other g k k' neigh pos w h] at hv
    exact hg k' v hv

theorem burntOK_make_new_vertex :
    ∀ (atts : List (Key × (ℚ × ℚ))) (g g' : LGraph),
      make_new_vertex g atts = some g' → BurntOK g → BurntOK g' := by
  intro atts
  induction atts with
  | nil => intro g g' h; cases h
  | cons a rest ih =>
    intro g g' h hg
    obtain ⟨ev, p⟩ := a
    unfold make_new_vertex at h
    by_cases hr : retryCond g ev p = true
    · rw [hr] at h
      simp only [if_true] at h
      cases hm : make_new_vertex g rest with
      | none => rw [hm] at h; cases h
      | some h1 =>
        rw [hm] at h
        exact burntOK_set_active_states h1 ev g' h (ih g h1 hm hg)
    · rw [Bool.not_eq_true] at hr
      rw [hr] at h
      simp only [Bool.false_eq_true, if_false] at h
      exact burntOK_set_active_states _ ev g' h
        (burntOK_add_vertex g (newKey g) (some [ev]) (some p) 1 hg)

theorem reach_burntOK (g : LGraph) (h : Reach g) : BurntOK g := by
  induction h with
  | init g h0 =>
    intro k v hv
    exact ⟨0, by omega, by rw [h0 k v hv]; norm_num⟩
  | step g atts g' _ hmk ih =>
    exact burntOK_make_new_vertex atts g g' hmk ih

/-- C6. Activations: (1) a vertex created at a fresh key starts
with activation `0`; (2) a successful `reinforce` pass
(`set_active_states`) adds exactly `0.005` to each on-path vertex whose
activation is strictly below `15`, leaves every other activation
unchanged — in particular every off-path vertex's — and never decreases
any activation; (3) in every reachable state every stored activation
lies in `[0, 15]`. -/
theorem burnt_zero_monotone_bounded :
    (∀ (g : LGraph) (k : Key) (neigh : Option (List Key)) (pos : Option (ℚ × ℚ)) (w : ℚ),
      lookup g k = none →
      (lookup (add_vertex g k neigh pos w) k).map (fun v => v.burnt) = some 0) ∧
    (∀ (g : LGraph) (v : Key) (g' : LGraph), set_active_states g v = some g' →
      ∃ path, find_shortest_path g v root = some path ∧
        ∀ k vk, lookup g k = some vk →
          ∃ vk', lookup g' k = some vk' ∧
            vk'.burnt = (if k ∈ path ∧ vk.burnt < 15 then vk.burnt + 1/200
              else vk.burnt) ∧
            vk.burnt ≤ vk'.burnt) ∧
    (∀ g, Reach g → ∀ k vk, lookup g k = some vk → 0 ≤ vk.burnt ∧ vk.burnt ≤ 15) := by
  refine ⟨?_, ?_, ?_⟩
  · intro g k neigh pos w habs
    rw [lookup_add_vertex_fresh g k neigh pos w habs]
    rfl
  · intro g v g' h
    exact set_active_states_burnt_char g v g' h
  · intro g hre k vk hvk
    obtain ⟨m, hm, heq⟩ := reach_burntOK g hre k vk hvk
    rw [heq]
    constructor
    · positivity
    · rw [div_le_iff₀ (show (0 : ℚ) < 200 by norm_num)]
      have : (m : ℚ) ≤ 3000 := by exact_mod_cast hm
      linarith

end ClaimC6

section ConcreteEvaluation

/-- Path enumeration in a graph where the start's only neighbor is the
end: exactly one path. -/
theorem fap_two_step (g : LGraph) (a b : Key) (va : Vertex)
    (hne : a ≠ b) (hla : lookup g a = some va) (hnb : va.neighbors = [b]) :
    find_all_paths g a b [] = [[a, b]] := by
  rw [fap_step_some g a b [] va hne hla, hnb]
  have hf : ([b].filter (fun v => decide (v ∉ ([] : List Key) ++ [a]))) = [b] := by
    simp [Ne.symm hne]
  rw [hf, List.flatMap_cons, List.flatMap_nil, fap_step_end]
  simp

theorem fapEx : find_all_paths gEx (Key.str "1") root [] =
    [[Key.str "1", Key.str "0"]] :=
  fap_two_step gEx (Key.str "1") root ⟨1, [Key.str "0"], (1, 1), 0⟩ (by decide) rfl rfl

theorem fapEx2 : find_all_paths gEx2 (Key.str "1") root [] =
    [[Key.str "1", Key.str "0"]] :=
  fap_two_step gEx2 (Key.str "1") root ⟨1, [Key.str "0"], (1, 1), 0⟩ (by decide) rfl rfl

theorem gpwEx : get_path_weights gEx (Key.str "1") root = some [2] := by
  unfold get_path_weights
  rw [fapEx]
  have l0 : lookup gEx (Key.str "0") = some ⟨1, [Key.str "1"], (0, 0), 0⟩ := rfl
  have l1 : lookup gEx (Key.str "1") = some ⟨1, [Key.str "0"], (1, 1), 0⟩ := rfl
  norm_num [collect_path_weights, path_weight, l0, l1]

theorem gpwEx2 : get_path_weights gEx2 (Key.str "1") root = some [2] := by
  unfold get_path_weights
  rw [fapEx2]
  have l0 : lookup gEx2 (Key.str "0") = some ⟨1, [Key.str "1"], (0, 0), 0⟩ := rfl
  have l1 : lookup gEx2 (Key.str "1") = some ⟨1, [Key.str "0"], (1, 1), 0⟩ := rfl
  norm_num [collect_path_weights, path_weight, l0, l1]

theorem fspEx : find_shortest_path gEx (Key.str "1") root =
    some [Key.str "1", Key.str "0"] := by
  unfold find_shortest_path
  simp only [gpwEx, fapEx]
  simp [listMax, List.indexOf_cons]

theorem fspEx2 : find_shortest_path gEx2 (Key.str "1") root =
    some [Key.str "1", Key.str "0"] := by
  unfold find_shortest_path
  simp only [gpwEx2, fapEx2]
  simp [listMax, List.indexOf_cons]

theorem sasEx : set_active_states gEx (Key.str "1") = some gExR := by
  unfold set_active_states
  rw [fspEx]
  have hfil : ((keysList gEx).filter
      (fun k => decide (k ∉ [Key.str "1", Key.str "0"]))) = [] := rfl
  show some (decayLoop (burnLoop gEx [Key.str "1", Key.str "0"])
    ((keysList gEx).filter (fun k => decide (k ∉ [Key.str "1", Key.str "0"])))) =
    some gExR
  rw [hfil]
  show some (burnLoop gEx [Key.str "1", Key.str "0"]) = some gExR
  unfold burnLoop
  norm_num [updateVertex, reinforceVertex, burnStep, weightStep, lookup, gEx, gExR, root]
  simp

theorem sasEx2 : set_active_states gEx2 (Key.str "1") = some g2R := by
  unfold set_active_states
  rw [fspEx2]
  have hfil : ((keysList gEx2).filter
      (fun k => decide (k ∉ [Key.str "1", Key.str "0"]))) = [Key.str "2"] := rfl
  show some (decayLoop (burnLoop gEx2 [Key.str "1", Key.str "0"])
    ((keysList gEx2).filter (fun k => decide (k ∉ [Key.str "1", Key.str "0"])))) =
    some g2R
  rw [hfil]
  unfold decayLoop burnLoop
  norm_num [updateVertex, reinforceVertex, burnStep, weightStep, decayVertex,
    lookup, gEx2, g2R, root]
  simp

/-- The point `(1/10, 0)` is within the merge radius of `"0"`, which is
also its nearest vertex. -/
theorem itcNear : is_too_close gEx ((1/10 : ℚ), 0) = some (Key.str "0") := by
  norm_num [is_too_close, get_nearest_vertex, distSq, gEx, r, List.any_cons]

/-- The point `(5, 5)` is far from both seed vertices. -/
theorem itcFar : is_too_close gEx ((5 : ℚ), 5) = none := by
  norm_num [is_too_close, distSq, gEx, r, List.any_cons]

theorem retryEx_true : retryCond gEx (Key.str "1") ((1/10 : ℚ), 0) = true := by
  unfold retryCond
  rw [itcNear]
  decide

theorem retryEx_false : retryCond gEx (Key.str "1") ((5 : ℚ), 5) = false := by
  unfold retryCond
  rw [itcFar]
  rfl

/-- The full growth step on the reference graph with the single draw
`("1", (5,5))`: no retry, insert `"2"`, reinforce from `"1"`. -/
theorem mnvEx : make_new_vertex gEx [(Key.str "1", ((5 : ℚ), 5))] = some g2R := by
  unfold make_new_vertex
  rw [retryEx_false]
  simp only [Bool.false_eq_true, if_false]
  have hadd : add_vertex gEx (newKey gEx) (some [Key.str "1"]) (some ((5 : ℚ), 5)) 1 =
      gEx2 := rfl
  rw [hadd]
  exact sasEx2

end ConcreteEvaluation

section ClaimC2

/-- C2 (counterexample). Running the growth step on the reference
graph with draw `("1", (5,5))` — the non-retry branch — inserts the
brand-new vertex `"2"` whose neighbor set contains `"1"`, but `"1"`'s
neighbor set does NOT gain `"2"`: the edge is recorded one-sided, not
symmetrically. -/
theorem insert_edge_not_symmetric_cex :
    make_new_vertex gEx [(Key.str "1", ((5 : ℚ), 5))] = some g2R ∧
    Key.str "1" ∈ neighborsOf g2R (Key.str "2") ∧
    Key.str "2" ∉ neighborsOf g2R (Key.str "1") :=
  ⟨mnvEx, by decide, by decide⟩

/-- C2 (amended). In the non-retry branch of a growth step, the
new vertex `str(len)` is stored with neighbor list exactly `[v]`
(v = the expansion vertex), while `v`'s own neighbor list is left
unchanged — the edge is recorded one-sided; no `add_edge`/symmetric
link is performed (the pair still shows up in `edges()` because edge
enumeration follows one-sided neighbor references). -/
theorem insert_links_one_sided (g : LGraph) (ev : Key) (p : ℚ × ℚ)
    (rest : List (Key × (ℚ × ℚ))) (g' : LGraph)
    (hretry : retryCond g ev p = false)
    (hfresh : lookup g (newKey g) = none)
    (hrun : make_new_vertex g ((ev, p) :: rest) = some g') :
    neighborsOf g' (newKey g) = [ev] ∧
    (∀ k, k ≠ newKey g → neighborsOf g' k = neighborsOf g k) := by
  have heq : make_new_vertex g ((ev, p) :: rest) =
      set_active_states (add_vertex g (newKey g) (some [ev]) (some p) 1) ev := by
    unfold make_new_vertex
    rw [hretry]
    simp
  rw [heq] at hrun
  obtain ⟨_, hnbr, _, _⟩ :=
    set_active_states_preserves (add_vertex g (newKey g) (some [ev]) (some p) 1) ev g' hrun
  constructor
  · have h1 : lookup (add_vertex g (newKey g) (some [ev]) (some p) 1) (newKey g) =
        some ⟨1, [ev], p, 0⟩ := by
      have := lookup_add_vertex_fresh g (newKey g) (some [ev]) (some p) 1 hfresh
      simpa using this
    unfold neighborsOf
    rw [hnbr (newKey g), h1]
    rfl
  · intro k hk
    unfold neighborsOf
    rw [hnbr k, lookup_add_vertex_other g (newKey g) k (some [ev]) (some p) 1
      (fun h => hk h.symm)]

/-- Witness for `insert_links_one_sided` on the reference graph: the
inserted vertex `"2"` lists `"1"`, and `"1"`'s neighbor list is still
`["0"]`. -/
theorem insert_links_one_sided_witness :
    neighborsOf g2R (newKey gEx) = [Key.str "1"] ∧
    (∀ k, k ≠ newKey gEx → neighborsOf g2R k = neighborsOf gEx k) :=
  insert_links_one_sided gEx (Key.str "1") ((5 : ℚ), 5) [] g2R
    retryEx_false rfl mnvEx

end ClaimC2

section ClaimC10

/-- C10. `set_active_states(expansion_vertex)` runs after the
merge/insert branch at every recursion level of `make_new_vertex`: on
an attempt sequence whose first `k` draws all trigger the retry test
and whose `(k+1)`-st does not, the result is the insert-level
reinforcement pass followed by one further `set_active_states` pass per
discarded retry level — `k+1` passes in all — each seeded at that
level's own (discarded) expansion vertex, innermost first; and every
such pass adds no vertex and changes no neighbor list (so no edge),
though it mutates weights and activations across the whole graph. -/
theorem make_new_vertex_reinforces_every_level (g : LGraph)
    (retries : List (Key × (ℚ × ℚ))) (ev : Key) (p : ℚ × ℚ)
    (rest : List (Key × (ℚ × ℚ)))
    (hr : ∀ a ∈ retries, retryCond g a.1 a.2 = true)
    (hi : retryCond g ev p = false) :
    make_new_vertex g (retries ++ (ev, p) :: rest) =
      retries.foldr (fun a acc => acc.bind (fun h => set_active_states h a.1))
        (set_active_states (add_vertex g (newKey g) (some [ev]) (some p) 1) ev) ∧
    (∀ (h g' : LGraph) (k : Key), set_active_states h k = some g' →
      keysList g' = keysList h ∧
      ∀ k', (lookup g' k').map (fun w => w.neighbors) =
        (lookup h k').map (fun w => w.neighbors)) := by
  constructor
  · induction retries with
    | nil =>
      simp only [List.nil_append, List.foldr_nil]
      unfold make_new_vertex
      rw [hi]
      simp
    | cons a as ih =>
      obtain ⟨ea, pa⟩ := a
      have hra : retryCond g ea pa = true := hr (ea, pa) (List.mem_cons_self _ _)
      have ih' := ih (fun b hb => hr b (List.mem_cons_of_mem _ hb))
      rw [List.cons_append, List.foldr_cons]
      unfold make_new_vertex
      rw [hra]
      simp only [if_true]
      rw [← ih']
      cases make_new_vertex g (as ++ (ev, p) :: rest) with
      | none => rfl
      | some h => rfl
  · intro h g' k hs
    obtain ⟨hkeys, hnbr, _, _⟩ := set_active_states_preserves h k g' hs
    exact ⟨hkeys, hnbr⟩

/-- Witness for `make_new_vertex_reinforces_every_level`: on the
reference graph the draw `("1", (1/10, 0))` triggers a retry (the point
collides with `"0" ≠ "1"`), the next draw `("1", (5, 5))` inserts, and
the step equals the insert-level pass followed by one more pass for the
discarded level. -/
theorem make_new_vertex_reinforces_every_level_witness :
    make_new_vertex gEx
        ([(Key.str "1", ((1/10 : ℚ), 0))] ++ (Key.str "1", ((5 : ℚ), 5)) :: []) =
      [(Key.str "1", ((1/10 : ℚ), 0))].foldr
        (fun a acc => acc.bind (fun h => set_active_states h a.1))
        (set_active_states
          (add_vertex gEx (newKey gEx) (some [Key.str "1"]) (some ((5 : ℚ), 5)) 1)
          (Key.str "1")) ∧
    (∀ (h g' : LGraph) (k : Key), set_active_states h k = some g' →
      keysList g' = keysList h ∧
      ∀ k', (lookup g' k').map (fun w => w.neighbors) =
        (lookup h k').map (fun w => w.neighbors)) :=
  make_new_vertex_reinforces_every_level gEx [(Key.str "1", ((1/10 : ℚ), 0))]
    (Key.str "1") ((5 : ℚ), 5) []
    (by
      intro a ha
      rw [List.mem_singleton] at ha
      rw [ha]
      exact retryEx_true)
    retryEx_false

end ClaimC10

section Witnesses

/-- Witness for `burnt_zero_monotone_bounded`: a fresh vertex `"7"`
starts at activation `0`; the reinforcement pass `sasEx` on the
reference graph satisfies the pointwise activation description; and the
root vertex of the (reachable) reference graph has activation in
`[0, 15]`. -/
theorem burnt_zero_monotone_bounded_witness :
    ((lookup (add_vertex gEx (Key.str "7") none none 1) (Key.str "7")).map
      (fun v => v.burnt) = some 0) ∧
    (∃ path, find_shortest_path gEx (Key.str "1") root = some path ∧
      ∀ k vk, lookup gEx k = some vk →
        ∃ vk', lookup gExR k = some vk' ∧
          vk'.burnt = (if k ∈ path ∧ vk.burnt < 15 then vk.burnt + 1/200
            else vk.burnt) ∧
          vk.burnt ≤ vk'.burnt) ∧
    (0 ≤ (⟨1, [Key.str "1"], (0, 0), 0⟩ : Vertex).burnt ∧
      (⟨1, [Key.str "1"], (0, 0), 0⟩ : Vertex).burnt ≤ 15) := by
  have hinit : ∀ k v, lookup gEx k = some v → v.burnt = 0 := by
    intro k v h
    simp only [gEx, lookup] at h
    split at h
    · injection h with h'
      rw [← h']
    · split at h
      · injection h with h'
        rw [← h']
      · cases h
  exact ⟨burnt_zero_monotone_bounded.1 gEx (Key.str "7") none none 1 rfl,
    burnt_zero_monotone_bounded.2.1 gEx (Key.str "1") gExR sasEx,
    burnt_zero_monotone_bounded.2.2 gEx (Reach.init gEx hinit)
      (Key.str "0") ⟨1, [Key.str "1"], (0, 0), 0⟩ rfl⟩

/-- Witness for `find_shortest_path_maximal`: on the reference graph
the best path from `"1"` to the root is `["1", "0"]`, and the theorem's
maximality description holds for it. -/
theorem find_shortest_path_maximal_witness :
    ∃ ws i wmax,
      get_path_weights gEx (Key.str "1") root = some ws ∧
      (∀ j q, (find_all_paths gEx (Key.str "1") root []).get? j = some q →
        ∃ w', ws.get? j = some w' ∧ path_weight gEx q = some w') ∧
      (find_all_paths gEx (Key.str "1") root []).get? i =
        some [Key.str "1", Key.str "0"] ∧
      ws.get? i = some wmax ∧
      path_weight gEx [Key.str "1", Key.str "0"] = some wmax ∧
      (∀ w' ∈ ws, w' ≤ wmax) ∧
      (∀ j, j < i → ∀ w', ws.get? j = some w' → w' < wmax) :=
  find_shortest_path_maximal gEx (Key.str "1") root [Key.str "1", Key.str "0"] fspEx

end Witnesses

end PDRRT
